import Mathlib

/-!
# Verification of the h2p duration-budgeted timeline compositor

Shallow embedding of the two algorithmic cores of the repository:

* the subtitle timing synthesizer of `src/routes/audio.js`
  (`calculateSubtitleTimings` and its helpers), and
* the duration budget allocator of the `/generate/video-9-16` handler in
  `src/unnamed/part_001`.

All floating-point second arithmetic of the JavaScript source is modelled
over `ℚ` (exact arithmetic; the spec's one-frame epsilon is 0 here).
Probing and downloading are external I/O; their results are passed in as
data (`Option` values: `none` models a failed fetch).
-/

namespace H2P

/-! ## Subtitle timing synthesizer (src/routes/audio.js) -/

/-- One caption unit, as produced by `calculateSubtitleTimings`. -/
structure Subtitle where
  text : String
  startTime : ℚ
  endTime : ℚ
  deriving Repr, DecidableEq, Inhabited

/-- The character class of the regex `/[。！？；：，、\n\s]/g` used by
`calculateSubtitleTimings` to strip punctuation and whitespace (the
common whitespace code points stand in for `\s`). -/
def isPunctOrSpace (c : Char) : Bool :=
  c = '。' || c = '！' || c = '？' || c = '；' || c = '：' || c = '，' ||
  c = '、' || c = '\n' || c = ' ' || c = '\t' || c = '\r' || c = '　'

/-- `seg.replace(punctuationRegex, '').length`: the character count of a
segment with punctuation and whitespace stripped. -/
def charWeight (s : String) : ℕ :=
  (s.toList.filter (fun c => ¬ isPunctOrSpace c)).length

/-- `totalChars` of audio.js line 113: summed stripped character count. -/
def totalCharsOf (segments : List String) : ℕ :=
  (segments.map charWeight).sum

/-- audio.js lines 131-135: ideal duration per segment,
`Math.max(0.5, Math.min(totalDuration / 3, charCount * timePerChar))`
with `timePerChar = totalDuration / totalChars`. -/
def idealDurationsOf (segments : List String) (totalDuration : ℚ) : List ℚ :=
  let timePerChar : ℚ := totalDuration / (totalCharsOf segments : ℚ)
  segments.map fun s =>
    max (1/2) (min (totalDuration / 3) ((charWeight s : ℚ) * timePerChar))

/-- The per-fragment assignment loop of audio.js lines 148-173.
`cur` is `currentTime`, `rem` is `remainingTime`; each list entry pairs a
segment with its scaled ideal duration.  The last fragment consumes all
remaining time; a non-last fragment is capped at
`remainingTime - 0.5 * (fragments left after it)` and floored at `0.3`. -/
def assign (cur rem : ℚ) : List (String × ℚ) → List Subtitle
  | [] => []
  | [(s, _)] => [⟨s, cur, cur + rem⟩]
  | (s, d) :: p :: rest =>
      let capped := min d (rem - (1/2) * (((p :: rest).length : ℕ) : ℚ))
      let d2 := max (3/10) capped
      ⟨s, cur, cur + d2⟩ :: assign (cur + d2) (rem - d2) (p :: rest)

/-- audio.js lines 176-178: force the last fragment's `endTime`. -/
def setLastEnd : List Subtitle → ℚ → List Subtitle
  | [], _ => []
  | [s], e => [{ s with endTime := e }]
  | s :: p :: rest, e => s :: setLastEnd (p :: rest) e

/-- audio.js lines 119-124 (the all-punctuation fallback): fragment `i`
spans `[startTime + i*segmentDuration, startTime + (i+1)*segmentDuration]`. -/
def evenAssign (startTime segmentDuration : ℚ) : ℕ → List String → List Subtitle
  | _, [] => []
  | i, s :: rest =>
      ⟨s, startTime + (i : ℚ) * segmentDuration,
          startTime + ((i : ℚ) + 1) * segmentDuration⟩ ::
        evenAssign startTime segmentDuration (i + 1) rest

/-- `calculateSubtitleTimings(segments, totalDuration, startTime)` of
audio.js lines 106-181, over exact rationals. -/
def calculateSubtitleTimings (segments : List String) (totalDuration startTime : ℚ) :
    List Subtitle :=
  match segments with
  | [] => []
  | s :: rest =>
      let segs := s :: rest
      if totalCharsOf segs = 0 then
        evenAssign startTime (totalDuration / (segs.length : ℚ)) 0 segs
      else
        let idealDurations := idealDurationsOf segs totalDuration
        let idealTotal := idealDurations.sum
        let scaleFactor := if idealTotal > totalDuration then totalDuration / idealTotal else 1
        setLastEnd (assign startTime totalDuration
          (segs.zip (idealDurations.map (· * scaleFactor))))
          (startTime + totalDuration)

/-! ## Duration budget allocator (src/unnamed/part_001, /generate/video-9-16) -/

/-- The kinds of timeline entries the handler produces. -/
inductive SegKind
  | clipSeg
  | staticImageSeg
  | scrollImageSeg
  | fillerSeg
  deriving Repr, DecidableEq

/-- A normalized, duration-bearing unit of the output timeline. -/
structure Segment where
  kind : SegKind
  duration : ℚ
  deriving Repr, DecidableEq

/-- The error outcomes of the handler, by its JSON error responses. -/
inductive GenError
  | invalidRequest
  | noSources
  | downloadFailed
  | noVideoGenerated
  deriving Repr, DecidableEq

/-- The success payload: the ordered segment list behind the emitted
concatenation plan, and the probed duration of the (post-trim) output. -/
structure GenResult where
  segments : List Segment
  actualDuration : ℚ
  deriving Repr, DecidableEq

/-- part_001 lines 506-515: every clip source is downloaded before the
processing loop; a single failed download rejects the whole handler. -/
def resolveAll : List (Option ℚ) → Option (List ℚ)
  | [] => some []
  | none :: _ => none
  | some d :: rest => (resolveAll rest).map (fun l => d :: l)

/-- part_001 lines 521-569: consume clip durations in order, stopping as
soon as the running total reaches `targetDuration`. -/
def takeClips (targetDuration : ℚ) : ℚ → List ℚ → List ℚ
  | _, [] => []
  | total, d :: rest =>
      if targetDuration ≤ total + d then [d]
      else d :: takeClips targetDuration (total + d) rest

/-- part_001 lines 572-635: the taken clips are concatenated into a single
file, trimmed to `targetDuration` when the concatenation overshoots. -/
def clipPoolFiles (targetDuration : ℚ) (clipDurs : List ℚ) : List Segment :=
  match takeClips targetDuration 0 clipDurs with
  | [] => []
  | d :: taken =>
      let concatenatedDuration := (d :: taken).sum
      if concatenatedDuration > targetDuration then [⟨.clipSeg, targetDuration⟩]
      else [⟨.clipSeg, concatenatedDuration⟩]

/-- `Math.round` on a nonnegative JavaScript number: `⌊x + 1/2⌋`. -/
def jsRound (q : ℚ) : ℤ := ⌊q + 1/2⌋

/-- part_001 lines 698-699: `Math.round(image.height * (1080 / image.width))`. -/
def scaledHeightOf (w h : ℕ) : ℤ := jsRound ((h : ℚ) * (1080 / (w : ℚ)))

/-- part_001 lines 668-687: an image whose probed dimensions are below
500 px in either direction is discarded; a failed fetch or probe is
skipped softly. -/
def validImages (images : List (Option (ℕ × ℕ))) : List (ℕ × ℕ) :=
  images.filterMap fun o =>
    o.bind fun wh => if 500 ≤ wh.1 ∧ 500 ≤ wh.2 then some wh else none

/-- part_001 lines 704-709 and 748-750: the candidate segment of a valid
image.  Scaled height above the 1920 px frame gives a scrolling segment of
`max(3, (scaledHeight - 1920) / 100)` seconds, otherwise a static 5 s
segment. -/
def imageCandidate (w h : ℕ) : Segment :=
  if 1920 < scaledHeightOf w h then
    ⟨.scrollImageSeg, max 3 (((scaledHeightOf w h : ℚ) - 1920) / 100)⟩
  else ⟨.staticImageSeg, 5⟩

/-- part_001 lines 711-714 and 752-755: an image segment that would push
the accumulated image duration past the remaining budget is clamped to
`Math.max(1, remainingDuration - accumulatedDuration)`. -/
def clampImageDuration (remainingDuration accumulatedDuration cand : ℚ) : ℚ :=
  if accumulatedDuration + cand > remainingDuration then
    max 1 (remainingDuration - accumulatedDuration)
  else cand

/-- part_001 lines 693-804: the image pool loop, breaking as soon as the
accumulated duration reaches the remaining budget. -/
def imageLoop (remainingDuration : ℚ) : ℚ → List (ℕ × ℕ) → List Segment
  | _, [] => []
  | acc, (w, h) :: rest =>
      let cand := imageCandidate w h
      let d := clampImageDuration remainingDuration acc cand.duration
      if remainingDuration ≤ acc + d then [⟨cand.kind, d⟩]
      else ⟨cand.kind, d⟩ :: imageLoop remainingDuration (acc + d) rest

/-- part_001 lines 648-807 wrapped: the image step runs only with budget
remaining and a non-empty image URL list. -/
def imagePoolFiles (remainingDuration : ℚ) (images : List (Option (ℕ × ℕ))) :
    List Segment :=
  if 0 < remainingDuration ∧ images ≠ [] then
    imageLoop remainingDuration 0 (validImages images)
  else []

/-- part_001 lines 846-894: consume fetched append-video durations in
order, stopping as soon as the accumulated duration reaches the remaining
budget. -/
def appendLoop (remaining : ℚ) : ℚ → List ℚ → List ℚ
  | _, [] => []
  | acc, d :: rest =>
      if remaining ≤ acc + d then [d]
      else d :: appendLoop remaining (acc + d) rest

/-- part_001 lines 896-936: when the append pool overshoots, the last
taken video is trimmed to the shortfall, or removed when the trimmed
duration would not be positive. -/
def appendFinal (remaining : ℚ) (durs : List ℚ) : List ℚ :=
  if durs ≠ [] ∧ durs.sum > remaining then
    let excess := durs.sum - remaining
    let trimmed := durs.getLast?.getD 0 - excess
    if trimmed > 0 then durs.dropLast ++ [trimmed] else durs.dropLast
  else durs

/-- The append (filler) pool's emitted segments. -/
def appendSegs (remaining : ℚ) (durs : List ℚ) : List Segment :=
  (appendFinal remaining (appendLoop remaining 0 durs)).map fun d => ⟨.fillerSeg, d⟩

/-- part_001 lines 822-942 wrapped: the append step runs only with budget
remaining and a non-empty append URL list; failed fetches are skipped. -/
def appendPoolFiles (remaining : ℚ) (appends : List (Option ℚ)) : List Segment :=
  if 0 < remaining ∧ appends ≠ [] then appendSegs remaining (appends.filterMap id)
  else []

/-- part_001 lines 639-645: `currentDuration` is 0 with no processed file,
else the probed duration of the first one. -/
def firstFileDuration : List Segment → ℚ
  | [] => 0
  | f :: _ => f.duration

/-- part_001 steps 1-3 combined: the ordered list of processed video
files (clip concatenation, per-image videos, appended videos).
`currentDuration` re-probes the first file after step 1 (lines 639-645);
`remainingAfterImages` re-probes every file after step 2 (lines 810-820). -/
def processedFiles (targetDuration : ℚ) (clipDurs : List ℚ)
    (imageSources : List (Option (ℕ × ℕ))) (appendSources : List (Option ℚ)) :
    List Segment :=
  let clipFiles := clipPoolFiles targetDuration clipDurs
  let currentDuration := firstFileDuration clipFiles
  let files1 := clipFiles ++
    imagePoolFiles (targetDuration - currentDuration) imageSources
  files1 ++
    appendPoolFiles (targetDuration - (files1.map Segment.duration).sum) appendSources

/-- The `/generate/video-9-16` handler of part_001 lines 440-1039 as a
pure allocation over probe results.  `videoSources`, `imageSources` and
`appendSources` carry the fetch/probe outcome of each URL in order
(`none` = the fetch failed).  Clip fetches are not guarded in the source,
so a `none` clip aborts; image and append fetches are soft failures.
The final `if` is the post-pass trim of lines 989-1023: the concatenated
output is cut back to `targetDuration` whenever it overshoots, and
`actualDuration` is the probed duration of the (possibly trimmed) file. -/
def generateVideo916 (targetDuration : ℚ) (videoSources : List (Option ℚ))
    (imageSources : List (Option (ℕ × ℕ))) (appendSources : List (Option ℚ)) :
    Except GenError GenResult :=
  if ¬ 0 < targetDuration then .error .invalidRequest
  else if videoSources = [] ∧ imageSources = [] ∧ appendSources = [] then
    .error .noSources
  else
    match resolveAll videoSources with
    | none => .error .downloadFailed
    | some clipDurs =>
      let processedVideoFiles := processedFiles targetDuration clipDurs
        imageSources appendSources
      if processedVideoFiles = [] then .error .noVideoGenerated
      else
        let finalDuration := (processedVideoFiles.map Segment.duration).sum
        let actualDuration :=
          if finalDuration > targetDuration then targetDuration else finalDuration
        .ok ⟨processedVideoFiles, actualDuration⟩

/-! ## Basic lemmas about the allocator's loops -/

theorem resolveAll_map_some (l : List ℚ) : resolveAll (l.map some) = some l := by
  induction l with
  | nil => rfl
  | cons d rest ih => simp [resolveAll, ih]

theorem resolveAll_append_none (l1 l2 : List (Option ℚ)) :
    resolveAll (l1 ++ none :: l2) = none := by
  induction l1 with
  | nil => rfl
  | cons o rest ih =>
      cases o with
      | none => rfl
      | some d => simp [resolveAll, ih]

theorem takeClips_ne_nil (T total : ℚ) (ds : List ℚ) (h : ds ≠ []) :
    takeClips T total ds ≠ [] := by
  cases ds with
  | nil => exact absurd rfl h
  | cons d rest =>
      unfold takeClips
      split <;> simp

theorem takeClips_reaches_or_all (T : ℚ) (ds : List ℚ) :
    ∀ total : ℚ, T ≤ total + (takeClips T total ds).sum ∨ takeClips T total ds = ds := by
  induction ds with
  | nil => intro total; right; rfl
  | cons d rest ih =>
      intro total
      unfold takeClips
      by_cases h : T ≤ total + d
      · left; simpa [h] using h
      · rcases ih (total + d) with h2 | h2
        · left; simp only [if_neg h, List.sum_cons]
          linarith
        · right; simp [h, h2]

theorem appendLoop_ne_nil (R acc : ℚ) (ds : List ℚ) (h : ds ≠ []) :
    appendLoop R acc ds ≠ [] := by
  cases ds with
  | nil => exact absurd rfl h
  | cons d rest =>
      unfold appendLoop
      split <;> simp

theorem appendLoop_reaches_or_all (R : ℚ) (ds : List ℚ) :
    ∀ acc : ℚ, R ≤ acc + (appendLoop R acc ds).sum ∨ appendLoop R acc ds = ds := by
  induction ds with
  | nil => intro acc; right; rfl
  | cons d rest ih =>
      intro acc
      unfold appendLoop
      by_cases h : R ≤ acc + d
      · left; simpa [h] using h
      · rcases ih (acc + d) with h2 | h2
        · left; simp only [if_neg h, List.sum_cons]
          linarith
        · right; simp [h, h2]

theorem appendLoop_mem (R : ℚ) (ds : List ℚ) :
    ∀ acc : ℚ, ∀ x ∈ appendLoop R acc ds, x ∈ ds := by
  induction ds with
  | nil => intro acc x hx; simpa [appendLoop] using hx
  | cons d rest ih =>
      intro acc x hx
      unfold appendLoop at hx
      by_cases h : R ≤ acc + d
      · simp only [if_pos h, List.mem_singleton] at hx
        simp [hx]
      · simp only [if_neg h, List.mem_cons] at hx
        rcases hx with hx | hx
        · simp [hx]
        · exact List.mem_cons_of_mem _ (ih (acc + d) x hx)

/-- The running total strictly below the budget when the last taken
element was reached: the sum of all but the last taken element stays
under the remaining budget. -/
theorem appendLoop_dropLast_sum_lt (R : ℚ) (ds : List ℚ) :
    ∀ acc : ℚ, ds ≠ [] → acc < R →
      acc + (appendLoop R acc ds).dropLast.sum < R := by
  induction ds with
  | nil => intro acc h; exact absurd rfl h
  | cons d rest ih =>
      intro acc _ hacc
      unfold appendLoop
      by_cases h : R ≤ acc + d
      · simpa [h] using hacc
      · rcases List.eq_nil_or_concat rest with hrest | _
        · subst hrest
          simpa [h, appendLoop] using hacc
        · have hne : rest ≠ [] := by
            rintro rfl
            simp_all
          have hl := appendLoop_ne_nil R (acc + d) rest hne
          have := ih (acc + d) hne (by linarith)
          simp only [if_neg h, List.dropLast_cons_of_ne_nil hl, List.sum_cons]
          linarith

theorem appendFinal_of_le (R : ℚ) (durs : List ℚ) (h : durs.sum ≤ R) :
    appendFinal R durs = durs := by
  unfold appendFinal
  rw [if_neg]
  rintro ⟨-, hgt⟩
  exact absurd h (not_le.mpr hgt)

/-- When the append loop overshoots, the post-pass replaces the last taken
duration by exactly the remaining budget after the earlier ones. -/
theorem appendFinal_of_overshoot (R : ℚ) (ds : List ℚ) (hR : 0 < R) (hne : ds ≠ [])
    (hs : R < (appendLoop R 0 ds).sum) :
    appendFinal R (appendLoop R 0 ds) =
      (appendLoop R 0 ds).dropLast ++ [R - (appendLoop R 0 ds).dropLast.sum] := by
  set out := appendLoop R 0 ds with hout
  have houtne : out ≠ [] := appendLoop_ne_nil R 0 ds hne
  have hdl : out.dropLast.sum < R := by
    have := appendLoop_dropLast_sum_lt R ds 0 hne hR
    linarith
  have hsum : out.sum = out.dropLast.sum + out.getLast houtne := by
    conv_lhs => rw [← List.dropLast_append_getLast houtne]
    simp
  have hlast : out.getLast?.getD 0 = out.getLast houtne := by
    rw [List.getLast?_eq_getLast out houtne]
    rfl
  unfold appendFinal
  rw [if_pos ⟨houtne, hs⟩, hlast, if_pos (by linarith)]
  congr 1
  congr 1
  linarith

theorem appendFinal_sum (R : ℚ) (ds : List ℚ) (hR : 0 < R) :
    (appendFinal R (appendLoop R 0 ds)).sum = min (appendLoop R 0 ds).sum R := by
  rcases eq_or_ne ds [] with rfl | hne
  · simp [appendLoop, appendFinal, le_of_lt hR]
  · rcases le_or_lt (appendLoop R 0 ds).sum R with h | h
    · rw [appendFinal_of_le R _ h, min_eq_left h]
    · rw [appendFinal_of_overshoot R ds hR hne h, min_eq_right (le_of_lt h)]
      simp

theorem appendFinal_ne_nil (R : ℚ) (ds : List ℚ) (hR : 0 < R) (hne : ds ≠ []) :
    appendFinal R (appendLoop R 0 ds) ≠ [] := by
  rcases le_or_lt (appendLoop R 0 ds).sum R with h | h
  · rw [appendFinal_of_le R _ h]
    exact appendLoop_ne_nil R 0 ds hne
  · rw [appendFinal_of_overshoot R ds hR hne h]
    simp

theorem appendFinal_pos (R : ℚ) (ds : List ℚ) (hR : 0 < R)
    (hpos : ∀ d ∈ ds, 0 < d) :
    ∀ x ∈ appendFinal R (appendLoop R 0 ds), 0 < x := by
  rcases eq_or_ne ds [] with rfl | hne
  · intro x hx
    simp [appendLoop, appendFinal] at hx
  · have hdl : (appendLoop R 0 ds).dropLast.sum < R := by
      have := appendLoop_dropLast_sum_lt R ds 0 hne hR
      linarith
    rcases le_or_lt (appendLoop R 0 ds).sum R with h | h
    · rw [appendFinal_of_le R _ h]
      intro x hx
      exact hpos x (appendLoop_mem R ds 0 x hx)
    · rw [appendFinal_of_overshoot R ds hR hne h]
      intro x hx
      rcases List.mem_append.mp hx with hx | hx
      · exact hpos x (appendLoop_mem R ds 0 x (List.dropLast_subset _ hx))
      · rw [List.mem_singleton.mp hx]
        linarith

theorem clipPoolFiles_eq (T : ℚ) (clipDurs : List ℚ) (h : clipDurs ≠ []) :
    clipPoolFiles T clipDurs = [⟨.clipSeg, min (takeClips T 0 clipDurs).sum T⟩] := by
  unfold clipPoolFiles
  rcases htc : takeClips T 0 clipDurs with - | ⟨d, taken⟩
  · exact absurd htc (takeClips_ne_nil T 0 clipDurs h)
  · dsimp only
    rcases le_or_lt (d :: taken).sum T with hle | hgt
    · rw [if_neg (not_lt.mpr hle), min_eq_left hle]
    · rw [if_pos hgt, min_eq_right (le_of_lt hgt)]

theorem imageLoop_ne_nil (R acc : ℚ) (imgs : List (ℕ × ℕ)) (h : imgs ≠ []) :
    imageLoop R acc imgs ≠ [] := by
  cases imgs with
  | nil => exact absurd rfl h
  | cons wh rest =>
      obtain ⟨w, h'⟩ := wh
      unfold imageLoop
      dsimp only
      split <;> simp

theorem imageLoop_reaches_or_all (R : ℚ) (imgs : List (ℕ × ℕ)) :
    ∀ acc : ℚ,
      R ≤ acc + ((imageLoop R acc imgs).map Segment.duration).sum ∨
      (imageLoop R acc imgs).map Segment.duration =
        imgs.map fun wh => (imageCandidate wh.1 wh.2).duration := by
  induction imgs with
  | nil => intro acc; right; rfl
  | cons wh rest ih =>
      intro acc
      obtain ⟨w, h⟩ := wh
      unfold imageLoop
      dsimp only
      by_cases hb : R ≤ acc + clampImageDuration R acc (imageCandidate w h).duration
      · rw [if_pos hb]
        left
        simpa using hb
      · rw [if_neg hb]
        have hd : clampImageDuration R acc (imageCandidate w h).duration =
            (imageCandidate w h).duration := by
          unfold clampImageDuration
          split
          · next hfire =>
              exfalso
              apply hb
              unfold clampImageDuration
              rw [if_pos hfire]
              have h2 : R - acc ≤ max 1 (R - acc) := le_max_right _ _
              linarith
          · rfl
        rcases ih (acc + clampImageDuration R acc (imageCandidate w h).duration)
          with h2 | h2
        · left
          simp only [List.map_cons, List.sum_cons]
          linarith
        · right
          rw [hd] at h2
          simp only [List.map_cons, List.sum_cons, h2, hd]

theorem validImages_skip (l1 l2 : List (Option (ℕ × ℕ))) :
    validImages (l1 ++ none :: l2) = validImages (l1 ++ l2) := by
  simp [validImages, List.filterMap_append, List.filterMap_cons, Option.bind]

theorem imagePoolFiles_skip (R : ℚ) (l1 l2 : List (Option (ℕ × ℕ))) :
    imagePoolFiles R (l1 ++ none :: l2) = imagePoolFiles R (l1 ++ l2) := by
  rcases eq_or_ne (l1 ++ l2) [] with h12 | h12
  · obtain ⟨rfl, rfl⟩ := List.append_eq_nil.mp h12
    unfold imagePoolFiles
    split_ifs <;> simp_all [validImages, imageLoop]
  · unfold imagePoolFiles
    rw [validImages_skip]
    have h1 : l1 ++ none :: l2 ≠ [] := by simp
    split_ifs with ha hb hb <;> simp_all

theorem appendPoolFiles_skip (R : ℚ) (l1 l2 : List (Option ℚ)) :
    appendPoolFiles R (l1 ++ none :: l2) = appendPoolFiles R (l1 ++ l2) := by
  have hfm : (l1 ++ none :: l2).filterMap id = (l1 ++ l2).filterMap id := by
    simp [List.filterMap_append, List.filterMap_cons]
  rcases eq_or_ne (l1 ++ l2) [] with h12 | h12
  · obtain ⟨rfl, rfl⟩ := List.append_eq_nil.mp h12
    unfold appendPoolFiles
    split_ifs <;>
      simp_all [appendSegs, appendLoop, appendFinal]
  · unfold appendPoolFiles
    rw [hfm]
    have h1 : l1 ++ none :: l2 ≠ [] := by simp
    split_ifs with ha hb hb <;> simp_all

theorem clipPoolFiles_nil (T : ℚ) : clipPoolFiles T [] = [] := by
  simp [clipPoolFiles, takeClips]

theorem imagePoolFiles_of_nonpos (R : ℚ) (images : List (Option (ℕ × ℕ)))
    (h : ¬ 0 < R) : imagePoolFiles R images = [] := by
  unfold imagePoolFiles
  rw [if_neg]
  rintro ⟨h1, -⟩
  exact h h1

theorem imagePoolFiles_of_valid_nil (R : ℚ) (images : List (Option (ℕ × ℕ)))
    (h : validImages images = []) : imagePoolFiles R images = [] := by
  unfold imagePoolFiles
  split_ifs
  · rw [h]; rfl
  · rfl

theorem imagePoolFiles_pos (R : ℚ) (images : List (Option (ℕ × ℕ)))
    (hR : 0 < R) (h : images ≠ []) :
    imagePoolFiles R images = imageLoop R 0 (validImages images) := by
  unfold imagePoolFiles
  rw [if_pos ⟨hR, h⟩]

theorem appendPoolFiles_of_nonpos (R : ℚ) (appends : List (Option ℚ))
    (h : ¬ 0 < R) : appendPoolFiles R appends = [] := by
  unfold appendPoolFiles
  rw [if_neg]
  rintro ⟨h1, -⟩
  exact h h1

theorem appendPoolFiles_of_fetched_nil (R : ℚ) (appends : List (Option ℚ))
    (h : appends.filterMap id = []) : appendPoolFiles R appends = [] := by
  unfold appendPoolFiles
  split_ifs
  · rw [appendSegs, h]
    simp [appendLoop, appendFinal]
  · rfl

theorem appendPoolFiles_pos (R : ℚ) (appends : List (Option ℚ))
    (hR : 0 < R) (h : appends ≠ []) :
    appendPoolFiles R appends = appendSegs R (appends.filterMap id) := by
  unfold appendPoolFiles
  rw [if_pos ⟨hR, h⟩]

/-- When the append pool runs with a positive remaining budget no larger
than the fetched candidates' total, its emitted durations sum to exactly
the remaining budget. -/
theorem appendPoolFiles_sum_exact (R : ℚ) (appends : List (Option ℚ))
    (hR : 0 < R) (hcand : R ≤ (appends.filterMap id).sum) :
    ((appendPoolFiles R appends).map Segment.duration).sum = R := by
  have hfne : appends.filterMap id ≠ [] := by
    intro h
    rw [h] at hcand
    simp at hcand
    linarith
  have hne : appends ≠ [] := by
    rintro rfl
    exact hfne rfl
  rw [appendPoolFiles_pos R appends hR hne]
  unfold appendSegs
  have hloop : R ≤ (appendLoop R 0 (appends.filterMap id)).sum := by
    rcases appendLoop_reaches_or_all R (appends.filterMap id) 0 with h | h
    · linarith
    · rw [h]; exact hcand
  rw [List.map_map]
  have hmap : (Segment.duration ∘ fun d => Segment.mk .fillerSeg d) = id := rfl
  rw [hmap, List.map_id]
  rw [appendFinal_sum R _ hR, min_eq_right hloop]

theorem processedFiles_ne_of_clips (T : ℚ) (clipDurs : List ℚ)
    (imageSources : List (Option (ℕ × ℕ))) (appendSources : List (Option ℚ))
    (hcd : clipDurs ≠ []) :
    processedFiles T clipDurs imageSources appendSources ≠ [] := by
  unfold processedFiles
  rw [clipPoolFiles_eq T clipDurs hcd]
  simp

theorem processedFiles_ne_of_images (T : ℚ) (clipDurs : List ℚ)
    (imageSources : List (Option (ℕ × ℕ))) (appendSources : List (Option ℚ))
    (hT : 0 < T) (hcd : clipDurs = []) (hvi : validImages imageSources ≠ []) :
    processedFiles T clipDurs imageSources appendSources ≠ [] := by
  subst hcd
  have his : imageSources ≠ [] := by
    rintro rfl
    exact hvi rfl
  unfold processedFiles
  rw [clipPoolFiles_nil]
  dsimp only [firstFileDuration]
  rw [sub_zero, imagePoolFiles_pos T imageSources hT his]
  have h1 := imageLoop_ne_nil T 0 (validImages imageSources) hvi
  intro hc
  rw [List.append_eq_nil] at hc
  rw [List.append_eq_nil] at hc
  exact h1 hc.1.2

theorem processedFiles_ne_of_appends (T : ℚ) (clipDurs : List ℚ)
    (imageSources : List (Option (ℕ × ℕ))) (appendSources : List (Option ℚ))
    (hT : 0 < T) (hcd : clipDurs = []) (hvi : validImages imageSources = [])
    (hfa : appendSources.filterMap id ≠ []) :
    processedFiles T clipDurs imageSources appendSources ≠ [] := by
  subst hcd
  have has : appendSources ≠ [] := by
    rintro rfl
    exact hfa rfl
  unfold processedFiles
  rw [clipPoolFiles_nil]
  dsimp only [firstFileDuration]
  rw [sub_zero, imagePoolFiles_of_valid_nil T imageSources hvi]
  simp only [List.append_nil, List.nil_append, List.map_nil, List.sum_nil, sub_zero]
  rw [appendPoolFiles_pos T appendSources hT has]
  unfold appendSegs
  have := appendFinal_ne_nil T (appendSources.filterMap id) hT hfa
  simp_all

theorem processedFiles_nil_iff (T : ℚ) (clipDurs : List ℚ)
    (imageSources : List (Option (ℕ × ℕ))) (appendSources : List (Option ℚ))
    (hT : 0 < T) :
    processedFiles T clipDurs imageSources appendSources = [] ↔
      clipDurs = [] ∧ validImages imageSources = [] ∧
        appendSources.filterMap id = [] := by
  constructor
  · intro h
    refine ⟨?_, ?_, ?_⟩
    · by_contra hcd
      exact processedFiles_ne_of_clips T clipDurs imageSources appendSources hcd h
    · by_contra hvi
      rcases eq_or_ne clipDurs [] with hcd | hcd
      · exact processedFiles_ne_of_images T clipDurs imageSources appendSources
          hT hcd hvi h
      · exact processedFiles_ne_of_clips T clipDurs imageSources appendSources hcd h
    · by_contra hfa
      rcases eq_or_ne clipDurs [] with hcd | hcd
      · rcases eq_or_ne (validImages imageSources) [] with hvi | hvi
        · exact processedFiles_ne_of_appends T clipDurs imageSources appendSources
            hT hcd hvi hfa h
        · exact processedFiles_ne_of_images T clipDurs imageSources appendSources
            hT hcd hvi h
      · exact processedFiles_ne_of_clips T clipDurs imageSources appendSources hcd h
  · rintro ⟨rfl, hvi, hfa⟩
    unfold processedFiles
    rw [clipPoolFiles_nil]
    dsimp only [firstFileDuration]
    rw [sub_zero, imagePoolFiles_of_valid_nil T imageSources hvi]
    simp only [List.append_nil, List.nil_append, List.map_nil, List.sum_nil, sub_zero]
    exact appendPoolFiles_of_fetched_nil T appendSources hfa

/-- When the clip pool alone reaches the target, the later pools are
skipped (zero remaining budget) and the timeline is the single trimmed
clip concatenation. -/
theorem processedFiles_of_clips_reach (T : ℚ) (clipDurs : List ℚ)
    (imageSources : List (Option (ℕ × ℕ))) (appendSources : List (Option ℚ))
    (hcd : clipDurs ≠ []) (hS : T ≤ (takeClips T 0 clipDurs).sum) :
    processedFiles T clipDurs imageSources appendSources = [⟨.clipSeg, T⟩] := by
  unfold processedFiles
  rw [clipPoolFiles_eq T clipDurs hcd, min_eq_right hS]
  dsimp only [firstFileDuration]
  rw [sub_self, imagePoolFiles_of_nonpos 0 imageSources (lt_irrefl 0)]
  simp only [List.append_nil, List.map_cons, List.map_nil, List.sum_cons,
    List.sum_nil, add_zero, sub_self]
  rw [appendPoolFiles_of_nonpos 0 appendSources (lt_irrefl 0)]
  simp

/-- When the clip pool is exhausted short of the target and the candidate
durations of all pools cover the target, the emitted total reaches the
target. -/
theorem processedFiles_sum_of_clips_short (T : ℚ) (clipDurs : List ℚ)
    (imageSources : List (Option (ℕ × ℕ))) (appendSources : List (Option ℚ))
    (hT : 0 < T) (htake : takeClips T 0 clipDurs = clipDurs)
    (hlt : clipDurs.sum < T)
    (hcand : T ≤ clipDurs.sum +
      ((validImages imageSources).map fun wh => (imageCandidate wh.1 wh.2).duration).sum +
      (appendSources.filterMap id).sum) :
    T ≤ ((processedFiles T clipDurs imageSources appendSources).map
      Segment.duration).sum := by
  have hclip : ((clipPoolFiles T clipDurs).map Segment.duration).sum = clipDurs.sum ∧
      firstFileDuration (clipPoolFiles T clipDurs) = clipDurs.sum := by
    rcases eq_or_ne clipDurs [] with rfl | hne
    · rw [clipPoolFiles_nil]
      exact ⟨rfl, rfl⟩
    · rw [clipPoolFiles_eq T clipDurs hne, htake, min_eq_left (le_of_lt hlt)]
      exact ⟨by simp, rfl⟩
  obtain ⟨hcsum, hcfirst⟩ := hclip
  unfold processedFiles
  dsimp only
  rw [hcfirst]
  set R := T - clipDurs.sum with hR
  have hRpos : 0 < R := by rw [hR]; linarith
  have himg : R ≤ ((imagePoolFiles R imageSources).map Segment.duration).sum ∨
      ((imagePoolFiles R imageSources).map Segment.duration).sum =
        ((validImages imageSources).map fun wh =>
          (imageCandidate wh.1 wh.2).duration).sum := by
    rcases eq_or_ne imageSources [] with rfl | his
    · right
      rw [imagePoolFiles_of_valid_nil R [] rfl]
      rfl
    · rw [imagePoolFiles_pos R imageSources hRpos his]
      rcases imageLoop_reaches_or_all R (validImages imageSources) 0 with h | h
      · left; linarith
      · right; rw [h]
  set IS := ((imagePoolFiles R imageSources).map Segment.duration).sum with hIS
  simp only [List.map_append, List.sum_append]
  rw [← hIS]
  rcases himg with himg | himg
  · -- image pool filled the remaining budget: append pool sees none left
    rw [appendPoolFiles_of_nonpos _ appendSources (by rw [hcsum]; linarith)]
    simp only [List.map_nil, List.sum_nil, add_zero]
    rw [hcsum]
    linarith
  · -- image pool emitted every candidate
    set R2 := T - (clipDurs.sum + IS) with hR2
    have hR2eq : T - (((clipPoolFiles T clipDurs).map Segment.duration).sum + IS) = R2 := by
      rw [hcsum]
    rw [hR2eq]
    rcases le_or_lt R2 0 with h2 | h2
    · rw [appendPoolFiles_of_nonpos R2 appendSources (not_lt.mpr h2)]
      simp only [List.map_nil, List.sum_nil, add_zero]
      rw [hcsum]
      linarith
    · have hle : R2 ≤ (appendSources.filterMap id).sum := by
        rw [hR2, himg]
        linarith
      rw [appendPoolFiles_sum_exact R2 appendSources h2 hle, hcsum, hR2]
      linarith

/-- The emitted total reaches the target whenever the candidate durations
across all pools cover it. -/
theorem processedFiles_sum_ge (T : ℚ) (clipDurs : List ℚ)
    (imageSources : List (Option (ℕ × ℕ))) (appendSources : List (Option ℚ))
    (hT : 0 < T)
    (hcand : T ≤ clipDurs.sum +
      ((validImages imageSources).map fun wh => (imageCandidate wh.1 wh.2).duration).sum +
      (appendSources.filterMap id).sum) :
    T ≤ ((processedFiles T clipDurs imageSources appendSources).map
      Segment.duration).sum := by
  rcases takeClips_reaches_or_all T clipDurs 0 with htake | htake
  · have hS : T ≤ (takeClips T 0 clipDurs).sum := by linarith
    have hcd : clipDurs ≠ [] := by
      rintro rfl
      simp [takeClips] at hS
      linarith
    rw [processedFiles_of_clips_reach T clipDurs imageSources appendSources hcd hS]
    simp
  · rcases le_or_lt T (takeClips T 0 clipDurs).sum with hS | hS
    · have hcd : clipDurs ≠ [] := by
        rintro rfl
        simp [takeClips] at hS
        linarith
      rw [processedFiles_of_clips_reach T clipDurs imageSources appendSources hcd hS]
      simp
    · rw [htake] at hS
      exact processedFiles_sum_of_clips_short T clipDurs imageSources appendSources
        hT htake hS hcand

/-! ## Claim theorems for the duration budget allocator -/

/-- C1: for every valid allocation input, the total duration of the
Timeline finally returned by the allocator never exceeds `targetDuration`:
the post-pass trim of the assembled output caps the returned duration at
the target (the spec's one-frame epsilon is 0 in exact arithmetic). -/
theorem c1_total_never_exceeds_target (T : ℚ) (videoSources : List (Option ℚ))
    (imageSources : List (Option (ℕ × ℕ))) (appendSources : List (Option ℚ))
    (r : GenResult)
    (h : generateVideo916 T videoSources imageSources appendSources = .ok r) :
    r.actualDuration ≤ T := by
  unfold generateVideo916 at h
  split at h
  · exact absurd h (by simp)
  · split at h
    · exact absurd h (by simp)
    · split at h
      · exact absurd h (by simp)
      · dsimp only at h
        split at h
        · exact absurd h (by simp)
        · rw [Except.ok.injEq] at h
          subst h
          dsimp only
          split
          · exact le_refl T
          · next hng => exact not_lt.mp hng

/-- Witness for C1 at the spec's Example 1: target 10, one clip of
duration 12, trimmed to exactly 10. -/
theorem c1_witness : (GenResult.mk [⟨.clipSeg, 10⟩] 10).actualDuration ≤ 10 :=
  c1_total_never_exceeds_target 10 [some 12] [] [] ⟨[⟨.clipSeg, 10⟩], 10⟩ (by
    norm_num [generateVideo916, resolveAll, processedFiles, clipPoolFiles, takeClips,
      firstFileDuration, imagePoolFiles, appendPoolFiles, validImages])

/-- C2: whenever the candidate segment durations across the three pools
sum to at least the target, the returned `actualDuration` equals the
target exactly after the post-pass trim. -/
theorem c2_exact_when_candidates_sufficient (T : ℚ) (clipDurs : List ℚ)
    (imageSources : List (Option (ℕ × ℕ))) (appendSources : List (Option ℚ))
    (hT : 0 < T)
    (hcand : T ≤ clipDurs.sum +
      ((validImages imageSources).map fun wh => (imageCandidate wh.1 wh.2).duration).sum +
      (appendSources.filterMap id).sum) :
    ∃ r, generateVideo916 T (clipDurs.map some) imageSources appendSources = .ok r ∧
      r.actualDuration = T := by
  have hsum := processedFiles_sum_ge T clipDurs imageSources appendSources hT hcand
  have hp : processedFiles T clipDurs imageSources appendSources ≠ [] := by
    intro h
    rw [h] at hsum
    simp at hsum
    linarith
  have hall : ¬ (clipDurs.map some = [] ∧ imageSources = [] ∧ appendSources = []) := by
    rintro ⟨hc, hi, ha⟩
    exact hp ((processedFiles_nil_iff T clipDurs imageSources appendSources hT).mpr
      ⟨by simpa using hc, by rw [hi]; rfl, by rw [ha]; rfl⟩)
  refine ⟨⟨processedFiles T clipDurs imageSources appendSources, T⟩, ?_, rfl⟩
  unfold generateVideo916
  rw [if_neg (not_not_intro hT), if_neg hall, resolveAll_map_some]
  dsimp only
  rw [if_neg hp]
  rcases eq_or_lt_of_le hsum with heq | hlt
  · rw [if_neg (by rw [← heq]; exact lt_irrefl T), ← heq]
  · rw [if_pos hlt]

/-- Witness for C2 at the spec's Example 2: target 10, clips `[4, 3]`,
one 1000×2000 image whose scroll candidate is capped at 3 s. -/
theorem c2_witness :
    ∃ r, generateVideo916 10 (([4, 3] : List ℚ).map some) [some (1000, 2000)] [] =
      .ok r ∧ r.actualDuration = 10 :=
  c2_exact_when_candidates_sufficient 10 [4, 3] [some (1000, 2000)] []
    (by norm_num)
    (by norm_num [validImages, imageCandidate, scaledHeightOf, jsRound,
      List.filterMap_cons])

/-- C4 counterexample: with a failing clip fetch ahead of a perfectly
usable image source, the allocator aborts with the generic download
failure, not `NoSourcesAvailable`, even though the image pool would have
yielded a usable Segment (as the second run shows). -/
theorem c4_counterexample :
    generateVideo916 10 [none] [some (1080, 5000)] [] = .error .downloadFailed ∧
      generateVideo916 10 [] [some (1080, 5000)] [] =
        .ok ⟨[⟨.scrollImageSeg, 10⟩], 10⟩ := by
  constructor
  · norm_num [generateVideo916, resolveAll]
  · norm_num [generateVideo916, resolveAll, processedFiles, clipPoolFiles, takeClips,
      firstFileDuration, imagePoolFiles, appendPoolFiles, validImages, imageLoop,
      imageCandidate, clampImageDuration, scaledHeightOf, jsRound]

/-- C4 amended: provided every clip-pool fetch succeeds, the allocator
fails exactly when no pool yields any usable Segment (empty clip pool, no
valid image, no fetched append video); otherwise it returns the (possibly
partial) Timeline successfully. -/
theorem c4_amended_failure_iff_no_usable (T : ℚ) (clipDurs : List ℚ)
    (imageSources : List (Option (ℕ × ℕ))) (appendSources : List (Option ℚ))
    (hT : 0 < T) :
    (∃ e, generateVideo916 T (clipDurs.map some) imageSources appendSources =
        .error e) ↔
      (clipDurs = [] ∧ validImages imageSources = [] ∧
        appendSources.filterMap id = []) := by
  unfold generateVideo916
  rw [if_neg (not_not_intro hT)]
  by_cases hall : clipDurs.map some = [] ∧ imageSources = [] ∧ appendSources = []
  · rw [if_pos hall]
    obtain ⟨hc, hi, ha⟩ := hall
    have hc' : clipDurs = [] := by simpa using hc
    subst hc' hi ha
    exact ⟨fun _ => ⟨rfl, rfl, rfl⟩, fun _ => ⟨.noSources, rfl⟩⟩
  · rw [if_neg hall, resolveAll_map_some]
    dsimp only
    by_cases hp : processedFiles T clipDurs imageSources appendSources = []
    · rw [if_pos hp]
      exact ⟨fun _ => (processedFiles_nil_iff T clipDurs imageSources
          appendSources hT).mp hp,
        fun _ => ⟨.noVideoGenerated, rfl⟩⟩
    · rw [if_neg hp]
      constructor
      · rintro ⟨e, he⟩
        exact absurd he (by simp)
      · intro hr
        exact absurd ((processedFiles_nil_iff T clipDurs imageSources
          appendSources hT).mpr hr) hp

/-- Witness for the amended C4: an input whose only usable pool is the
append pool neither raises `noSources` nor `noVideoGenerated`. -/
theorem c4_witness :
    (∃ e, generateVideo916 10 (([] : List ℚ).map some) [] [some 3] = .error e) ↔
      (([] : List ℚ) = [] ∧ validImages [] = [] ∧
        ([some 3] : List (Option ℚ)).filterMap id = []) :=
  c4_amended_failure_iff_no_usable 10 [] [] [some 3] (by norm_num)

theorem processedFiles_image_skip (T : ℚ) (clipDurs : List ℚ)
    (l1 l2 : List (Option (ℕ × ℕ))) (appendSources : List (Option ℚ)) :
    processedFiles T clipDurs (l1 ++ none :: l2) appendSources =
      processedFiles T clipDurs (l1 ++ l2) appendSources := by
  unfold processedFiles
  simp only [imagePoolFiles_skip]

theorem processedFiles_append_skip (T : ℚ) (clipDurs : List ℚ)
    (imageSources : List (Option (ℕ × ℕ))) (a1 a2 : List (Option ℚ)) :
    processedFiles T clipDurs imageSources (a1 ++ none :: a2) =
      processedFiles T clipDurs imageSources (a1 ++ a2) := by
  unfold processedFiles
  simp only [appendPoolFiles_skip]

/-- C5 counterexample: a single failing clip fetch aborts the whole
allocation with an error, despite a perfectly good clip beside it. -/
theorem c5_counterexample :
    generateVideo916 10 [some 4, none] [] [] = .error .downloadFailed := by
  unfold generateVideo916
  rw [if_neg (by norm_num), if_neg (by simp)]
  rfl

/-- C5 amended: a failing image-pool source (fetch or probe) and a
failing filler-pool fetch are skipped softly, with no effect on the
result; a failing clip-pool source instead aborts the whole allocation
with an error. -/
theorem c5_amended_soft_and_hard_failures :
    (∀ (T : ℚ) (vs : List (Option ℚ)) (l1 l2 : List (Option (ℕ × ℕ)))
        (apps : List (Option ℚ)), (vs ≠ [] ∨ l1 ++ l2 ≠ [] ∨ apps ≠ []) →
        generateVideo916 T vs (l1 ++ none :: l2) apps =
          generateVideo916 T vs (l1 ++ l2) apps) ∧
    (∀ (T : ℚ) (vs : List (Option ℚ)) (imgs : List (Option (ℕ × ℕ)))
        (a1 a2 : List (Option ℚ)), (vs ≠ [] ∨ imgs ≠ [] ∨ a1 ++ a2 ≠ []) →
        generateVideo916 T vs imgs (a1 ++ none :: a2) =
          generateVideo916 T vs imgs (a1 ++ a2)) ∧
    (∀ (T : ℚ) (v1 v2 : List (Option ℚ)) (imgs : List (Option (ℕ × ℕ)))
        (apps : List (Option ℚ)), 0 < T →
        generateVideo916 T (v1 ++ none :: v2) imgs apps =
          .error .downloadFailed) := by
  refine ⟨?_, ?_, ?_⟩
  · intro T vs l1 l2 apps hside
    unfold generateVideo916
    by_cases hT : 0 < T
    · have h1 : ¬ (vs = [] ∧ l1 ++ none :: l2 = [] ∧ apps = []) := by simp
      have h2 : ¬ (vs = [] ∧ l1 ++ l2 = [] ∧ apps = []) := by
        rintro ⟨hvs, h12, ha⟩
        rcases hside with h | h | h <;> contradiction
      rw [if_neg (not_not_intro hT), if_neg (not_not_intro hT), if_neg h1, if_neg h2]
      cases hres : resolveAll vs with
      | none => rfl
      | some cds =>
          dsimp only
          rw [processedFiles_image_skip]
    · rw [if_pos hT, if_pos hT]
  · intro T vs imgs a1 a2 hside
    unfold generateVideo916
    by_cases hT : 0 < T
    · have h1 : ¬ (vs = [] ∧ imgs = [] ∧ a1 ++ none :: a2 = []) := by simp
      have h2 : ¬ (vs = [] ∧ imgs = [] ∧ a1 ++ a2 = []) := by
        rintro ⟨hvs, hi, h12⟩
        rcases hside with h | h | h <;> contradiction
      rw [if_neg (not_not_intro hT), if_neg (not_not_intro hT), if_neg h1, if_neg h2]
      cases hres : resolveAll vs with
      | none => rfl
      | some cds =>
          dsimp only
          rw [processedFiles_append_skip]
    · rw [if_pos hT, if_pos hT]
  · intro T v1 v2 imgs apps hT
    unfold generateVideo916
    rw [if_neg (not_not_intro hT), if_neg (by simp), resolveAll_append_none]

/-- Witness for the amended C5 at concrete inputs: a skipped image
source, a skipped append source, a fatal clip source. -/
theorem c5_witness :
    generateVideo916 10 [some 4] ([some (600, 600)] ++ none :: []) [] =
      generateVideo916 10 [some 4] ([some (600, 600)] ++ []) [] ∧
    generateVideo916 10 [some 4] [] ([some 2] ++ none :: []) =
      generateVideo916 10 [some 4] [] ([some 2] ++ []) ∧
    generateVideo916 10 ([some 4] ++ none :: []) [] [] = .error .downloadFailed :=
  ⟨c5_amended_soft_and_hard_failures.1 10 [some 4] [some (600, 600)] [] [] (by simp),
   c5_amended_soft_and_hard_failures.2.1 10 [some 4] [] [some 2] [] (by simp),
   c5_amended_soft_and_hard_failures.2.2 10 [some 4] [] [] [] (by norm_num)⟩

/-- C6 counterexample: target 5.5 s, two valid 1080×1080 images.  The
second (last contributing) image segment is emitted with duration 1,
although `min(candidateDuration, remaining) = min(5, 0.5) = 0.5`: the
image-pool clamp has a 1-second floor and overshoots the budget. -/
theorem c6_counterexample :
    generateVideo916 (11/2) [] [some (1080, 1080), some (1080, 1080)] [] =
      .ok ⟨[⟨.staticImageSeg, 5⟩, ⟨.staticImageSeg, 1⟩], 11/2⟩ ∧
    ¬ ((1 : ℚ) ≤ min 5 (11/2 - 5)) := by
  constructor
  · have hp : processedFiles (11/2) [] [some (1080, 1080), some (1080, 1080)] [] =
        [⟨.staticImageSeg, 5⟩, ⟨.staticImageSeg, 1⟩] := by
      norm_num [processedFiles, clipPoolFiles, takeClips, firstFileDuration,
        imagePoolFiles, appendPoolFiles, validImages, imageLoop, imageCandidate,
        clampImageDuration, scaledHeightOf, jsRound, List.filterMap_cons]
      intro h
      exact absurd h (by simp)
    unfold generateVideo916
    rw [if_neg (by norm_num), if_neg (by simp)]
    dsimp only [resolveAll]
    rw [hp, if_neg (by simp)]
    norm_num
  · norm_num

/-- C6 amended: the filler pool's post-pass truncates so that its emitted
total never exceeds the remaining budget, and never emits a non-positive
segment; the image pool instead clamps an overshooting segment to
`max(1, remaining - accumulated)` — never above its candidate duration
and never dropped, but possibly above the remaining budget. -/
theorem c6_amended_clamp_policies (R acc c : ℚ) (ds : List ℚ) (hR : 0 < R) :
    (1 ≤ c → 0 < clampImageDuration R acc c ∧ clampImageDuration R acc c ≤ c) ∧
    (R - acc < c → clampImageDuration R acc c = max 1 (R - acc)) ∧
    (appendFinal R (appendLoop R 0 ds)).sum ≤ R ∧
    ((∀ d ∈ ds, 0 < d) → ∀ x ∈ appendFinal R (appendLoop R 0 ds), 0 < x) := by
  refine ⟨?_, ?_, ?_, appendFinal_pos R ds hR⟩
  · intro hc
    unfold clampImageDuration
    split
    · next hfire =>
        constructor
        · have := le_max_left (1 : ℚ) (R - acc)
          linarith
        · exact max_le hc (by linarith)
    · exact ⟨by linarith, le_refl c⟩
  · intro hlt
    unfold clampImageDuration
    rw [if_pos (by linarith)]
  · rcases eq_or_ne ds [] with rfl | hne
    · have h0 : appendLoop R 0 ([] : List ℚ) = [] := rfl
      rw [h0, appendFinal_of_le R [] (by simp; linarith)]
      simp
      linarith
    · rw [appendFinal_sum R ds hR]
      exact min_le_right _ _

/-- Witness for the amended C6 at concrete inputs. -/
theorem c6_witness :
    ((1 : ℚ) ≤ 5 → 0 < clampImageDuration 10 0 5 ∧ clampImageDuration 10 0 5 ≤ 5) ∧
    ((10 : ℚ) - 0 < 5 → clampImageDuration 10 0 5 = max 1 (10 - 0)) ∧
    (appendFinal 10 (appendLoop 10 0 [3])).sum ≤ 10 ∧
    ((∀ d ∈ ([3] : List ℚ), 0 < d) → ∀ x ∈ appendFinal 10 (appendLoop 10 0 [3]), 0 < x) :=
  c6_amended_clamp_policies 10 0 5 [3] (by norm_num)

/-- A single valid image of candidate duration at most the target yields
exactly its candidate segment. -/
theorem generate_single_image (w h : ℕ) (T : ℚ) (hT : 0 < T)
    (hw : 500 ≤ w) (hh : 500 ≤ h) (hd : (imageCandidate w h).duration ≤ T) :
    generateVideo916 T [] [some (w, h)] [] =
      .ok ⟨[⟨(imageCandidate w h).kind, (imageCandidate w h).duration⟩],
           (imageCandidate w h).duration⟩ := by
  unfold generateVideo916
  rw [if_neg (not_not_intro hT), if_neg (by simp)]
  dsimp only [resolveAll]
  have hvalid : validImages [some (w, h)] = [(w, h)] := by
    unfold validImages
    simp [List.filterMap_cons, hw, hh]
  have hloop : imageLoop T 0 [(w, h)] =
      [⟨(imageCandidate w h).kind, (imageCandidate w h).duration⟩] := by
    unfold imageLoop
    dsimp only
    have hclamp : clampImageDuration T 0 (imageCandidate w h).duration =
        (imageCandidate w h).duration := by
      unfold clampImageDuration
      rw [if_neg (by rw [zero_add]; exact not_lt.mpr hd)]
    rw [hclamp]
    split
    · rfl
    · rfl
  unfold processedFiles
  rw [clipPoolFiles_nil]
  dsimp only [firstFileDuration]
  rw [sub_zero, imagePoolFiles_pos T [some (w, h)] hT (by simp), hvalid, hloop]
  rw [appendPoolFiles_of_fetched_nil _ [] rfl]
  simp only [List.nil_append, List.append_nil, List.map_cons, List.map_nil,
    List.sum_cons, List.sum_nil, add_zero]
  rw [if_neg (by simp), if_neg (not_lt.mpr hd)]

/-- C7: an image with either probed dimension below 500 px never produces
a Segment; a valid image produces a scrolling segment of pre-clamp
duration `max(3, (scaledHeight - 1920) / 100)` when its scaled height
exceeds the 1920 px frame, and a static 5-second segment otherwise. -/
theorem c7_image_normalization (w h : ℕ) (T : ℚ) (hT : 0 < T) :
    ((w < 500 ∨ h < 500) →
      generateVideo916 T [] [some (w, h)] [] = .error .noVideoGenerated) ∧
    (500 ≤ w → 500 ≤ h → 1920 < scaledHeightOf w h →
      max 3 (((scaledHeightOf w h : ℚ) - 1920) / 100) ≤ T →
      generateVideo916 T [] [some (w, h)] [] =
        .ok ⟨[⟨.scrollImageSeg, max 3 (((scaledHeightOf w h : ℚ) - 1920) / 100)⟩],
             max 3 (((scaledHeightOf w h : ℚ) - 1920) / 100)⟩) ∧
    (500 ≤ w → 500 ≤ h → scaledHeightOf w h ≤ 1920 → 5 ≤ T →
      generateVideo916 T [] [some (w, h)] [] = .ok ⟨[⟨.staticImageSeg, 5⟩], 5⟩) := by
  refine ⟨?_, ?_, ?_⟩
  · intro hsmall
    have hvalid : validImages [some (w, h)] = [] := by
      have hns : ¬ (500 ≤ w ∧ 500 ≤ h) := by omega
      unfold validImages
      simp [List.filterMap_cons, hns]
    unfold generateVideo916
    rw [if_neg (not_not_intro hT), if_neg (by simp)]
    dsimp only [resolveAll]
    rw [if_pos ((processedFiles_nil_iff T [] [some (w, h)] [] hT).mpr
      ⟨rfl, hvalid, rfl⟩)]
  · intro hw hh hsc hdT
    have hcand : imageCandidate w h =
        ⟨.scrollImageSeg, max 3 (((scaledHeightOf w h : ℚ) - 1920) / 100)⟩ := by
      unfold imageCandidate
      rw [if_pos hsc]
    have := generate_single_image w h T hT hw hh (by rw [hcand]; exact hdT)
    rw [hcand] at this
    exact this
  · intro hw hh hsc hdT
    have hcand : imageCandidate w h = ⟨.staticImageSeg, 5⟩ := by
      unfold imageCandidate
      rw [if_neg (not_lt.mpr hsc)]
    have := generate_single_image w h T hT hw hh (by rw [hcand]; exact hdT)
    rw [hcand] at this
    exact this

/-- Witness for C7: a 1080×5000 image scrolls for
`max(3, (5000 - 1920)/100) = 30.8` seconds within a 31-second budget. -/
theorem c7_witness :
    generateVideo916 31 [] [some (1080, 5000)] [] =
      .ok ⟨[⟨.scrollImageSeg, max 3 (((scaledHeightOf 1080 5000 : ℚ) - 1920) / 100)⟩],
           max 3 (((scaledHeightOf 1080 5000 : ℚ) - 1920) / 100)⟩ :=
  (c7_image_normalization 1080 5000 31 (by norm_num)).2.1 (by norm_num) (by norm_num)
    (by norm_num [scaledHeightOf, jsRound])
    (by rw [max_le_iff]; norm_num [scaledHeightOf, jsRound])

/-! ## Basic lemmas about the subtitle synthesizer -/

theorem assign_ne_nil :
    ∀ (ps : List (String × ℚ)) (cur rem : ℚ), ps ≠ [] → assign cur rem ps ≠ []
  | [], _, _, h => absurd rfl h
  | [(s, d)], _, _, _ => by simp [assign]
  | (s, d) :: p :: rest, cur, rem, _ => by
      unfold assign
      simp

theorem assign_length :
    ∀ (ps : List (String × ℚ)) (cur rem : ℚ), (assign cur rem ps).length = ps.length
  | [], _, _ => rfl
  | [(s, d)], _, _ => rfl
  | (s, d) :: p :: rest, cur, rem => by
      unfold assign
      dsimp only
      rw [List.length_cons, assign_length (p :: rest)]
      rfl

/-- The first fragment of a non-empty assignment starts at the cursor. -/
theorem assign_head :
    ∀ (p : String × ℚ) (rest : List (String × ℚ)) (cur rem : ℚ),
      ∃ e tl, assign cur rem (p :: rest) = ⟨p.1, cur, e⟩ :: tl
  | (s, d), [], cur, rem => ⟨cur + rem, [], rfl⟩
  | (s, d), q :: rest, cur, rem => by
      unfold assign
      dsimp only
      exact ⟨_, _, rfl⟩

/-- Fragments assigned sequentially are contiguous. -/
theorem assign_chain :
    ∀ (ps : List (String × ℚ)) (cur rem : ℚ),
      List.Chain' (fun a b => a.endTime = b.startTime) (assign cur rem ps)
  | [], _, _ => List.chain'_nil
  | [(s, d)], _, _ => List.chain'_singleton _
  | (s, d) :: q :: rest, cur, rem => by
      unfold assign
      dsimp only
      rw [List.chain'_cons']
      constructor
      · intro b hb
        obtain ⟨e, tl, heq⟩ := assign_head q rest
          (cur + max (3/10) (min d (rem - 1/2 * ((q :: rest).length : ℚ))))
          (rem - max (3/10) (min d (rem - 1/2 * ((q :: rest).length : ℚ))))
        rw [heq] at hb
        simp only [List.head?_cons, Option.mem_def, Option.some.injEq] at hb
        rw [← hb]
      · exact assign_chain (q :: rest) _ _

/-- The last fragment of an assignment ends at `cur + rem`. -/
theorem assign_last :
    ∀ (ps : List (String × ℚ)) (cur rem : ℚ), ps ≠ [] →
      ((assign cur rem ps).map Subtitle.endTime).getLast? = some (cur + rem)
  | [], _, _, h => absurd rfl h
  | [(s, d)], cur, rem, _ => rfl
  | (s, d) :: q :: rest, cur, rem, _ => by
      unfold assign
      dsimp only
      set d2 := max (3/10) (min d (rem - 1/2 * ((q :: rest).length : ℚ))) with hd2
      obtain ⟨e, tl, heq⟩ := assign_head q rest (cur + d2) (rem - d2)
      have ih := assign_last (q :: rest) (cur + d2) (rem - d2) (by simp)
      have harith : cur + d2 + (rem - d2) = cur + rem := by ring
      rw [harith] at ih
      rw [heq, List.map_cons] at ih
      rw [heq, List.map_cons, List.map_cons, List.getLast?_cons_cons]
      exact ih

/-- Every non-last fragment's duration is floored at 0.3 seconds. -/
theorem assign_floor :
    ∀ (ps : List (String × ℚ)) (cur rem : ℚ) (i : ℕ), i + 1 < ps.length →
      3/10 ≤ ((assign cur rem ps).getD i default).endTime -
        ((assign cur rem ps).getD i default).startTime
  | [], _, _, i, hi => by simp at hi
  | [(s, d)], _, _, i, hi => by simp at hi
  | (s, d) :: q :: rest, cur, rem, 0, hi => by
      unfold assign
      dsimp only [List.getD_cons_zero]
      have := le_max_left (3/10 : ℚ) (min d (rem - 1/2 * ((q :: rest).length : ℚ)))
      linarith
  | (s, d) :: q :: rest, cur, rem, i + 1, hi => by
      unfold assign
      dsimp only [List.getD_cons_succ]
      exact assign_floor (q :: rest) _ _ i (by simpa using hi)

theorem setLastEnd_length : ∀ (l : List Subtitle) (e : ℚ),
    (setLastEnd l e).length = l.length
  | [], _ => rfl
  | [s], _ => rfl
  | s :: p :: rest, e => by
      unfold setLastEnd
      rw [List.length_cons, setLastEnd_length (p :: rest)]
      rfl

theorem setLastEnd_getD : ∀ (l : List Subtitle) (e : ℚ) (i : ℕ), i + 1 < l.length →
    (setLastEnd l e).getD i default = l.getD i default
  | [], _, i, hi => by simp at hi
  | [s], _, i, hi => by simp at hi
  | s :: p :: rest, e, 0, hi => rfl
  | s :: p :: rest, e, i + 1, hi => by
      unfold setLastEnd
      dsimp only [List.getD_cons_succ]
      exact setLastEnd_getD (p :: rest) e i (by simpa using hi)

theorem setLastEnd_map_startTime : ∀ (l : List Subtitle) (e : ℚ),
    (setLastEnd l e).map Subtitle.startTime = l.map Subtitle.startTime
  | [], _ => rfl
  | [s], _ => rfl
  | s :: p :: rest, e => by
      unfold setLastEnd
      rw [List.map_cons, setLastEnd_map_startTime (p :: rest)]
      rfl

theorem setLastEnd_last_end : ∀ (l : List Subtitle) (e : ℚ), l ≠ [] →
    ((setLastEnd l e).map Subtitle.endTime).getLast? = some e
  | [], _, h => absurd rfl h
  | [s], _, _ => rfl
  | s :: p :: rest, e, _ => by
      unfold setLastEnd
      rw [List.map_cons, List.getLast?_cons]
      have hne : (setLastEnd (p :: rest) e).map Subtitle.endTime ≠ [] := by
        intro hmap
        have := setLastEnd_length (p :: rest) e
        rw [List.map_eq_nil.mp hmap] at this
        simp at this
      rw [List.getLast?_eq_getLast _ hne]
      have := setLastEnd_last_end (p :: rest) e (by simp)
      rw [List.getLast?_eq_getLast _ hne] at this
      exact this

theorem setLastEnd_head_startTime : ∀ (p : Subtitle) (rest : List Subtitle) (e : ℚ),
    ∃ q tl, setLastEnd (p :: rest) e = q :: tl ∧ q.startTime = p.startTime
  | p, [], e => ⟨{ p with endTime := e }, [], rfl, rfl⟩
  | p, q :: rest, e => ⟨p, setLastEnd (q :: rest) e, rfl, rfl⟩

theorem setLastEnd_chain : ∀ (l : List Subtitle) (e : ℚ),
    List.Chain' (fun a b => a.endTime = b.startTime) l →
    List.Chain' (fun a b => a.endTime = b.startTime) (setLastEnd l e)
  | [], _, _ => List.chain'_nil
  | [s], _, _ => List.chain'_singleton _
  | s :: p :: rest, e, h => by
      rw [List.chain'_cons] at h
      unfold setLastEnd
      rw [List.chain'_cons']
      constructor
      · intro b hb
        obtain ⟨q, tl, heq, hstart⟩ := setLastEnd_head_startTime p rest e
        rw [heq] at hb
        simp only [List.head?_cons, Option.mem_def, Option.some.injEq] at hb
        rw [← hb, hstart]
        exact h.1
      · exact setLastEnd_chain (p :: rest) e h.2

theorem evenAssign_length : ∀ (l : List String) (st d : ℚ) (i : ℕ),
    (evenAssign st d i l).length = l.length
  | [], _, _, _ => rfl
  | s :: rest, st, d, i => by
      unfold evenAssign
      rw [List.length_cons, evenAssign_length rest]
      rfl

theorem evenAssign_getD : ∀ (l : List String) (st d : ℚ) (i0 i : ℕ), i < l.length →
    (evenAssign st d i0 l).getD i default =
      ⟨l.getD i (""), st + ((i0 + i : ℕ) : ℚ) * d, st + (((i0 + i : ℕ) : ℚ) + 1) * d⟩
  | [], _, _, _, i, hi => by simp at hi
  | s :: rest, st, d, i0, 0, hi => by
      unfold evenAssign
      dsimp only [List.getD_cons_zero]
      norm_num
  | s :: rest, st, d, i0, i + 1, hi => by
      unfold evenAssign
      dsimp only [List.getD_cons_succ]
      rw [evenAssign_getD rest st d (i0 + 1) i (by simpa using hi)]
      have harith : i0 + 1 + i = i0 + (i + 1) := by omega
      rw [harith]

theorem evenAssign_chain : ∀ (l : List String) (st d : ℚ) (i : ℕ),
    List.Chain' (fun a b => a.endTime = b.startTime) (evenAssign st d i l)
  | [], _, _, _ => List.chain'_nil
  | [s], _, _, _ => List.chain'_singleton _
  | s :: q :: rest2, st, d, i => by
      have hstep : evenAssign st d i (s :: q :: rest2) =
          ⟨s, st + (i : ℚ) * d, st + ((i : ℚ) + 1) * d⟩ ::
            evenAssign st d (i + 1) (q :: rest2) := rfl
      have hstep2 : evenAssign st d (i + 1) (q :: rest2) =
          ⟨q, st + ((i + 1 : ℕ) : ℚ) * d, st + (((i + 1 : ℕ) : ℚ) + 1) * d⟩ ::
            evenAssign st d (i + 2) rest2 := rfl
      rw [hstep, List.chain'_cons']
      constructor
      · intro b hb
        rw [hstep2] at hb
        simp only [List.head?_cons, Option.mem_def, Option.some.injEq] at hb
        rw [← hb]
        push_cast
        ring
      · exact evenAssign_chain (q :: rest2) st d (i + 1)

theorem evenAssign_last : ∀ (l : List String) (st d : ℚ) (i : ℕ), l ≠ [] →
    ((evenAssign st d i l).map Subtitle.endTime).getLast? =
      some (st + ((i + l.length : ℕ) : ℚ) * d)
  | [], _, _, _, h => absurd rfl h
  | [s], st, d, i, _ => by
      have hstep : evenAssign st d i [s] =
          [⟨s, st + (i : ℚ) * d, st + ((i : ℚ) + 1) * d⟩] := rfl
      rw [hstep]
      simp only [List.map_cons, List.map_nil, List.getLast?_singleton,
        Option.some.injEq, List.length_singleton]
      push_cast
      ring
  | s :: q :: rest2, st, d, i, _ => by
      have hstep : evenAssign st d i (s :: q :: rest2) =
          ⟨s, st + (i : ℚ) * d, st + ((i : ℚ) + 1) * d⟩ ::
            evenAssign st d (i + 1) (q :: rest2) := rfl
      have hstep2 : evenAssign st d (i + 1) (q :: rest2) =
          ⟨q, st + ((i + 1 : ℕ) : ℚ) * d, st + (((i + 1 : ℕ) : ℚ) + 1) * d⟩ ::
            evenAssign st d (i + 2) rest2 := rfl
      have ih := evenAssign_last (q :: rest2) st d (i + 1) (by simp)
      rw [hstep2, List.map_cons] at ih
      rw [hstep, List.map_cons, hstep2, List.map_cons, List.getLast?_cons_cons, ih]
      have harith : i + 1 + (q :: rest2).length = i + (s :: q :: rest2).length := by
        simp
        omega
      rw [harith]

/-- The first fragment of a non-empty assignment starts at the cursor. -/
theorem assign_head_start : ∀ (ps : List (String × ℚ)) (cur rem : ℚ), ps ≠ [] →
    ((assign cur rem ps).map Subtitle.startTime).head? = some cur
  | [], _, _, h => absurd rfl h
  | p :: rest, cur, rem, _ => by
      obtain ⟨e, tl, heq⟩ := assign_head p rest cur rem
      rw [heq]
      rfl

/-- Combined contiguity and exactness of the main (weighted) branch. -/
theorem synth_main_props (ps : List (String × ℚ)) (cur rem : ℚ) (hps : ps ≠ []) :
    List.Chain' (fun a b => a.endTime = b.startTime)
      (setLastEnd (assign cur rem ps) (cur + rem)) ∧
    ((setLastEnd (assign cur rem ps) (cur + rem)).map Subtitle.startTime).head? =
      some cur ∧
    ((setLastEnd (assign cur rem ps) (cur + rem)).map Subtitle.endTime).getLast? =
      some (cur + rem) := by
  refine ⟨setLastEnd_chain _ _ (assign_chain ps cur rem), ?_, ?_⟩
  · rw [setLastEnd_map_startTime, assign_head_start ps cur rem hps]
  · exact setLastEnd_last_end _ _ (assign_ne_nil ps cur rem hps)

theorem calculateSubtitleTimings_length (segments : List String) (D st : ℚ) :
    (calculateSubtitleTimings segments D st).length = segments.length := by
  cases segments with
  | nil => rfl
  | cons s rest =>
      unfold calculateSubtitleTimings
      dsimp only
      split
      · exact evenAssign_length (s :: rest) st _ 0
      · rw [setLastEnd_length, assign_length]
        simp [List.length_zip, idealDurationsOf]

/-- The budget cap on non-last fragments: when the remaining time covers
0.3 s per fragment, each non-last fragment's duration stays at most the
remaining time minus a 0.3 s reservation per fragment still to come. -/
theorem assign_cap :
    ∀ (ps : List (String × ℚ)) (cur rem : ℚ), 3/10 * (ps.length : ℚ) ≤ rem →
      ∀ i : ℕ, i + 1 < ps.length →
      ((assign cur rem ps).getD i default).endTime -
        ((assign cur rem ps).getD i default).startTime ≤
      (cur + rem - ((assign cur rem ps).getD i default).startTime) -
        3/10 * ((ps.length - 1 - i : ℕ) : ℚ)
  | [], _, _, _, i, hi => by simp at hi
  | [p], _, _, _, i, hi => by simp at hi
  | (s, d) :: q :: rest, cur, rem, hbudget, i, hi => by
      unfold assign
      dsimp only
      set d2 := max (3/10) (min d (rem - 1/2 * ((q :: rest).length : ℚ))) with hd2
      have hL0 : (0 : ℚ) ≤ ((q :: rest).length : ℚ) := by positivity
      have hlen : (((s, d) :: q :: rest).length : ℚ) = ((q :: rest).length : ℚ) + 1 := by
        push_cast [List.length_cons]
        ring
      rw [hlen] at hbudget
      have hd2bound : d2 ≤ rem - 3/10 * ((q :: rest).length : ℚ) := by
        rcases le_or_lt (3/10) (rem - 1/2 * ((q :: rest).length : ℚ)) with hA | hB
        · have h1 : d2 ≤ rem - 1/2 * ((q :: rest).length : ℚ) :=
            max_le hA (min_le_right _ _)
          linarith
        · have h1 : min d (rem - 1/2 * ((q :: rest).length : ℚ)) < 3/10 :=
            lt_of_le_of_lt (min_le_right _ _) hB
          have h2 : d2 = 3/10 := max_eq_left (le_of_lt h1)
          rw [h2]
          linarith
      cases i with
      | zero =>
          dsimp only [List.getD_cons_zero]
          have hcast : ((s, d) :: q :: rest).length - 1 - 0 = (q :: rest).length := by
            simp
          rw [hcast]
          linarith
      | succ i =>
          dsimp only [List.getD_cons_succ]
          have hbudget2 : 3/10 * (((q :: rest).length : ℕ) : ℚ) ≤ rem - d2 := by
            linarith
          have ih := assign_cap (q :: rest) (cur + d2) (rem - d2) hbudget2 i
            (by simpa using hi)
          have harith : cur + d2 + (rem - d2) = cur + rem := by ring
          rw [harith] at ih
          have hlen2 : (q :: rest).length - 1 - i =
              ((s, d) :: q :: rest).length - 1 - (i + 1) := by
            simp only [List.length_cons]
            omega
          rw [hlen2] at ih
          exact ih

/-- Cap lifted through the final `endTime` overwrite. -/
theorem synth_main_cap (ps : List (String × ℚ)) (n : ℕ) (cur rem : ℚ)
    (hn : ps.length = n) (hbudget : 3/10 * (n : ℚ) ≤ rem) (i : ℕ) (hi : i + 1 < n) :
    ((setLastEnd (assign cur rem ps) (cur + rem)).getD i default).endTime -
      ((setLastEnd (assign cur rem ps) (cur + rem)).getD i default).startTime ≤
    (cur + rem -
      ((setLastEnd (assign cur rem ps) (cur + rem)).getD i default).startTime) -
      3/10 * ((n - 1 - i : ℕ) : ℚ) := by
  subst hn
  rw [setLastEnd_getD _ _ i (by rw [assign_length]; exact hi)]
  exact assign_cap ps cur rem hbudget i hi

/-- Floor lifted through the final `endTime` overwrite. -/
theorem synth_main_floor (ps : List (String × ℚ)) (n : ℕ) (cur rem : ℚ)
    (hn : ps.length = n) (i : ℕ) (hi : i + 1 < n) :
    3/10 ≤ ((setLastEnd (assign cur rem ps) (cur + rem)).getD i default).endTime -
      ((setLastEnd (assign cur rem ps) (cur + rem)).getD i default).startTime := by
  subst hn
  rw [setLastEnd_getD _ _ i (by rw [assign_length]; exact hi)]
  exact assign_floor ps cur rem i hi

/-! ## Claim theorems for the subtitle timing synthesizer -/

/-- C3: for any non-empty segment list and positive block duration, the
synthesized fragments are contiguous and non-overlapping
(`fragment[i].endTime = fragment[i+1].startTime`), the first fragment
starts at the block offset, and the last fragment ends exactly at
`blockStartOffset + blockDuration`. -/
theorem c3_fragments_contiguous_exact (segments : List String) (D st : ℚ)
    (hne : segments ≠ []) (hD : 0 < D) :
    List.Chain' (fun a b => a.endTime = b.startTime)
      (calculateSubtitleTimings segments D st) ∧
    ((calculateSubtitleTimings segments D st).map Subtitle.startTime).head? =
      some st ∧
    ((calculateSubtitleTimings segments D st).map Subtitle.endTime).getLast? =
      some (st + D) := by
  cases segments with
  | nil => exact absurd rfl hne
  | cons s rest =>
      unfold calculateSubtitleTimings
      dsimp only
      split
      · refine ⟨evenAssign_chain (s :: rest) st _ 0, ?_, ?_⟩
        · have hstep : evenAssign st (D / ((s :: rest).length : ℚ)) 0 (s :: rest) =
              ⟨s, st + ((0 : ℕ) : ℚ) * (D / ((s :: rest).length : ℚ)),
                  st + (((0 : ℕ) : ℚ) + 1) * (D / ((s :: rest).length : ℚ))⟩ ::
                evenAssign st (D / ((s :: rest).length : ℚ)) 1 rest := rfl
          rw [hstep]
          simp
        · rw [evenAssign_last (s :: rest) st _ 0 (by simp)]
          have hn : ((rest.length : ℕ) : ℚ) + 1 ≠ 0 := by positivity
          simp only [Nat.zero_add, Option.some.injEq]
          field_simp
      · exact synth_main_props _ st D (by
          intro h
          have := congrArg List.length h
          simp [List.length_zip, idealDurationsOf] at this)

/-- Witness for C3 at a two-fragment block of duration 6 starting at 5. -/
theorem c3_witness :
    List.Chain' (fun a b => a.endTime = b.startTime)
      (calculateSubtitleTimings [("ab。"), ("cd")] 6 5) ∧
    ((calculateSubtitleTimings [("ab。"), ("cd")] 6 5).map Subtitle.startTime).head? =
      some 5 ∧
    ((calculateSubtitleTimings [("ab。"), ("cd")] 6 5).map Subtitle.endTime).getLast? =
      some (5 + 6) :=
  c3_fragments_contiguous_exact [("ab。"), ("cd")] 6 5 (by simp) (by norm_num)

/-- C8 counterexample: segments `a`, `b`, `c` over a 0.1 s block.  The
first fragment gets the 0.3 s floor, which exceeds the claimed cap
`remainingTime - 0.3*(fragmentsLeft-1) = 0.1 - 0.6`; the last fragment is
then forced into negative duration. -/
theorem c8_counterexample :
    ((calculateSubtitleTimings [("a"), ("b"), ("c")] (1/10) 0).map
      fun sub => sub.endTime - sub.startTime) = [3/10, 3/10, -(1/2)] ∧
    ¬ ((3/10 : ℚ) ≤ 1/10 - 3/10 * 2) := by
  constructor
  · have ha : charWeight ("a") = 1 := by decide
    have hb : charWeight ("b") = 1 := by decide
    have hc : charWeight ("c") = 1 := by decide
    norm_num [calculateSubtitleTimings, totalCharsOf, idealDurationsOf, assign,
      setLastEnd, ha, hb, hc]
  · norm_num

/-- C8 amended: the code's cap is `remainingTime - 0.5*(fragmentsLeft-1)`
with a 0.3 s floor applied afterwards; provided the block duration covers
0.3 s per fragment, each non-last fragment's duration is still at most
`remainingTime - 0.3*(fragmentsLeft-1)` (with
`remainingTime = blockStartOffset + blockDuration - fragment.startTime`),
so no later fragment is forced into negative duration. -/
theorem c8_amended_cap (segments : List String) (D st : ℚ)
    (hbudget : 3/10 * (segments.length : ℚ) ≤ D) :
    ∀ i : ℕ, i + 1 < (calculateSubtitleTimings segments D st).length →
      ((calculateSubtitleTimings segments D st).getD i default).endTime -
        ((calculateSubtitleTimings segments D st).getD i default).startTime ≤
      (st + D -
        ((calculateSubtitleTimings segments D st).getD i default).startTime) -
        3/10 * (((calculateSubtitleTimings segments D st).length - 1 - i : ℕ) : ℚ) := by
  intro i hi
  rw [calculateSubtitleTimings_length] at hi ⊢
  cases segments with
  | nil => simp at hi
  | cons s rest =>
      unfold calculateSubtitleTimings
      dsimp only
      split
      · next h0 =>
        have hin : i < (s :: rest).length := by omega
        rw [evenAssign_getD (s :: rest) st _ 0 i hin]
        dsimp only
        have e1 : ((0 + i : ℕ) : ℚ) = (i : ℚ) := by push_cast; ring
        rw [e1]
        have hicast : (((s :: rest).length - 1 - i : ℕ) : ℚ) =
            (((s :: rest).length : ℕ) : ℚ) - 1 - (i : ℚ) := by
          have h2 : (s :: rest).length - 1 - i = (s :: rest).length - (1 + i) := by
            omega
          rw [h2, Nat.cast_sub (by omega)]
          push_cast
          ring
        rw [hicast]
        have hn0 : (0 : ℚ) < (((s :: rest).length : ℕ) : ℚ) := by
          exact_mod_cast Nat.succ_pos rest.length
        have hq : 3/10 ≤ D / (((s :: rest).length : ℕ) : ℚ) := by
          rw [le_div_iff hn0]
          linarith
        have hD : (((s :: rest).length : ℕ) : ℚ) *
            (D / (((s :: rest).length : ℕ) : ℚ)) = D := by
          field_simp
        have hge : (i : ℚ) + 2 ≤ (((s :: rest).length : ℕ) : ℚ) := by
          exact_mod_cast Nat.succ_le_of_lt hi
        have key : ((((s :: rest).length : ℕ) : ℚ) - (i : ℚ) - 1) * (3/10) ≤
            ((((s :: rest).length : ℕ) : ℚ) - (i : ℚ) - 1) *
              (D / (((s :: rest).length : ℕ) : ℚ)) :=
          mul_le_mul_of_nonneg_left hq (by linarith)
        nlinarith [key, hD]
      · exact synth_main_cap _ _ st D
          (by simp [List.length_zip, idealDurationsOf]) hbudget i hi

/-- Witness for the amended C8 at a two-fragment block of duration 6. -/
theorem c8_witness :
    ((calculateSubtitleTimings [("ab。"), ("cd")] 6 5).getD 0 default).endTime -
      ((calculateSubtitleTimings [("ab。"), ("cd")] 6 5).getD 0 default).startTime ≤
    (5 + 6 -
      ((calculateSubtitleTimings [("ab。"), ("cd")] 6 5).getD 0 default).startTime) -
      3/10 * (((calculateSubtitleTimings [("ab。"), ("cd")] 6 5).length - 1 - 0 : ℕ) : ℚ) :=
  c8_amended_cap [("ab。"), ("cd")] 6 5 (by norm_num) 0
    (by rw [calculateSubtitleTimings_length]; norm_num)

/-- C9 counterexample: one segment of weight 1 over a 1-second block.
The ideal duration is the 0.5 s floor, which exceeds
`blockDuration / 3 = 1/3`: the two clamp bounds cross when
`blockDuration < 1.5`. -/
theorem c9_counterexample :
    idealDurationsOf [("a")] 1 = [1/2] ∧ ¬ ((1/2 : ℚ) ≤ 1/3) := by
  constructor
  · have ha : charWeight ("a") = 1 := by decide
    norm_num [idealDurationsOf, totalCharsOf, ha]
  · norm_num

/-- C9 amended: each ideal duration is
`max(0.5, min(blockDuration/3, weight * blockDuration / totalWeight))`:
at least half a second always, and at most one third of the block
whenever `blockDuration ≥ 1.5` (for shorter blocks the 0.5 s floor wins
over the one-third cap). -/
theorem c9_amended_ideal_bounds (segments : List String) (D : ℚ)
    (hw : 0 < totalCharsOf segments) :
    ∀ d ∈ idealDurationsOf segments D, 1/2 ≤ d ∧ (3/2 ≤ D → d ≤ D / 3) := by
  intro d hd
  simp only [idealDurationsOf, List.mem_map] at hd
  obtain ⟨s, hs, rfl⟩ := hd
  constructor
  · exact le_max_left _ _
  · intro hD
    exact max_le (by linarith) (min_le_left _ _)

/-- Witness for the amended C9 on a weight-2 segment in a 6-second block. -/
theorem c9_witness :
    1/2 ≤ max (1/2) (min ((6 : ℚ) / 3)
      ((charWeight ("ab") : ℚ) * (6 / (totalCharsOf [("ab")] : ℚ)))) ∧
    (3/2 ≤ (6 : ℚ) → max (1/2) (min ((6 : ℚ) / 3)
      ((charWeight ("ab") : ℚ) * (6 / (totalCharsOf [("ab")] : ℚ)))) ≤ 6 / 3) :=
  c9_amended_ideal_bounds [("ab")] 6 (by decide) _ (by simp [idealDurationsOf])

/-- C10 counterexample: two pure-punctuation segments over a 0.2 s block
take the zero-weight fallback, which has no 0.3 s floor: the non-last
fragment's duration is 0.1 s. -/
theorem c10_counterexample :
    ((calculateSubtitleTimings [("。"), ("。")] (1/5) 0).map
      fun sub => sub.endTime - sub.startTime) = [1/10, 1/10] ∧
    ¬ ((3/10 : ℚ) ≤ 1/10) := by
  constructor
  · have ha : charWeight ("。") = 0 := by decide
    norm_num [calculateSubtitleTimings, totalCharsOf, evenAssign, ha]
  · norm_num

/-- C10 amended: whenever the segments have positive total stripped
weight (so the weighted branch runs), every non-last fragment's duration
is at least 0.3 seconds, for every block duration and start offset. -/
theorem c10_amended_min_duration (segments : List String) (D st : ℚ)
    (hw : 0 < totalCharsOf segments) :
    ∀ i : ℕ, i + 1 < (calculateSubtitleTimings segments D st).length →
      3/10 ≤ ((calculateSubtitleTimings segments D st).getD i default).endTime -
        ((calculateSubtitleTimings segments D st).getD i default).startTime := by
  intro i hi
  rw [calculateSubtitleTimings_length] at hi
  cases segments with
  | nil => simp at hi
  | cons s rest =>
      unfold calculateSubtitleTimings
      dsimp only
      split
      · next h0 =>
          rw [h0] at hw
          exact absurd hw (lt_irrefl 0)
      · exact synth_main_floor _ _ st D
          (by simp [List.length_zip, idealDurationsOf]) i hi

/-- Witness for the amended C10 at a two-fragment weighted block. -/
theorem c10_witness :
    3/10 ≤ ((calculateSubtitleTimings [("ab。"), ("cd")] 6 5).getD 0 default).endTime -
      ((calculateSubtitleTimings [("ab。"), ("cd")] 6 5).getD 0 default).startTime :=
  c10_amended_min_duration [("ab。"), ("cd")] 6 5 (by decide) 0
    (by rw [calculateSubtitleTimings_length]; norm_num)

end H2P
